import Mathlib

/-!
Verification of the `go-foundations/workerpool` library core against its
specification.  The Go source is shallowly embedded: pure fragments become
Lean functions, the stateful pool becomes explicit state passing, Go `int`
arithmetic is modelled over `Int`/`Nat` (index and counter values in the
embedded fragments stay far from machine-word bounds), `time.Time` and
`time.Duration` are modelled as integer nanosecond counts, and fallible
operations return `Option`/`Except`.
-/

set_option maxHeartbeats 1000000

namespace Workerpool

/-- Job record (workerpool.Job): id, payload, priority, creation timestamp.
`created` models `time.Time` as integer nanoseconds; the Go zero time is
modelled by `0` (`Created.IsZero()` becomes `created = 0`). -/
structure Job (T : Type) where
  id : String
  data : T
  priority : Int
  created : Int
  deriving DecidableEq, Repr

/-- Distribution strategy enum (workerpool.DistributionStrategy). -/
inductive DistributionStrategy where
  | roundRobin
  | chunked
  | workStealing
  | priorityBased
  deriving DecidableEq, Repr

/-- Pool configuration (workerpool.Config); durations in nanoseconds. -/
structure Config where
  numWorkers : Int
  bufferSize : Int
  strategy : DistributionStrategy
  timeout : Int
  workerTimeout : Int
  maxRetries : Int
  enableMetrics : Bool
  deriving DecidableEq, Repr

/-- Five minutes in nanoseconds (`5 * time.Minute`). -/
def fiveMinutes : Int := 300000000000

/-- Thirty seconds in nanoseconds (`30 * time.Second`). -/
def thirtySeconds : Int := 30000000000

/-- DefaultConfig from the source. -/
def DefaultConfig : Config :=
  { numWorkers := 4
    bufferSize := 100
    strategy := .roundRobin
    timeout := fiveMinutes
    workerTimeout := thirtySeconds
    maxRetries := 3
    enableMetrics := true }

/-- The configuration normalization performed at the start of `NewWithConfig`,
in source order: `NumWorkers <= 0` becomes 1; `BufferSize <= 0` becomes 100;
`Timeout <= 0` becomes 5 minutes; finally `BufferSize < 10` becomes 10. -/
def clampConfig (config : Config) : Config :=
  let c1 := if config.numWorkers ≤ 0 then { config with numWorkers := 1 } else config
  let c2 := if c1.bufferSize ≤ 0 then { c1 with bufferSize := 100 } else c1
  let c3 := if c2.timeout ≤ 0 then { c2 with timeout := fiveMinutes } else c2
  if c3.bufferSize < 10 then { c3 with bufferSize := 10 } else c3

/-- Metrics counters mutated by the orchestrator (durations/timestamps of the
metrics record are not needed by any claim and are omitted). -/
structure Metrics where
  totalJobs : Nat
  processedJobs : Nat
  failedJobs : Nat
  deriving DecidableEq, Repr

/-- WorkerPool state relevant to the lifecycle claims: the (clamped)
configuration, the loaded job list, the metrics counters, whether the
`results` channel created by `NewWithConfig` has been closed, and whether a
cancellation function is currently installed (`wp.cancel != nil`). -/
structure WorkerPool (T : Type) where
  config : Config
  jobs : List (Job T)
  metrics : Metrics
  resultsClosed : Bool
  cancelInstalled : Bool
  deriving DecidableEq, Repr

/-- NewWithConfig: clamp the config, allocate an open results channel sized to
`bufferSize`, leave `ctx`/`cancel` nil, start with empty metrics. -/
def NewWithConfig (T : Type) (config : Config) : WorkerPool T :=
  { config := clampConfig config
    jobs := []
    metrics := ⟨0, 0, 0⟩
    resultsClosed := false
    cancelInstalled := false }

/-- Creation-time stamping applied by AddJobs/AddJob: a job whose `created`
is the zero time gets the current time. -/
def stampJob (now : Int) (job : Job T) : Job T :=
  if job.created = 0 then { job with created := now } else job

/-- AddJobs from the source: `wp.jobs = make(...); copy(wp.jobs, jobs)` - the
pool's job list becomes a copy of the argument batch (it does NOT append to
the previous contents), the copies are stamped, and `metrics.TotalJobs` is set
to `len(wp.jobs)`. -/
def AddJobs (wp : WorkerPool T) (jobs : List (Job T)) (now : Int) : WorkerPool T :=
  let stamped := jobs.map (stampJob now)
  { wp with
    jobs := stamped
    metrics := { wp.metrics with totalJobs := stamped.length } }

/-- AddJob from the source: stamp the job, append it to `wp.jobs`, and set
`metrics.TotalJobs` to the new length. -/
def AddJob (wp : WorkerPool T) (job : Job T) (now : Int) : WorkerPool T :=
  let j := stampJob now job
  { wp with
    jobs := wp.jobs ++ [j]
    metrics := { wp.metrics with totalJobs := wp.jobs.length + 1 } }

/-- Stop from the source: read `wp.cancel` under the lock and invoke it only
when non-nil.  The returned pool is the (unchanged) pool state and the Bool
records whether a cancellation function was actually invoked; calling a
`context.CancelFunc` mutates the context, never the pool's fields. -/
def Stop (wp : WorkerPool T) : WorkerPool T × Bool :=
  (wp, wp.cancelInstalled)

/-- Result-channel phase of `Run`: the channel is created once per pool (in
`NewWithConfig`); a run emits one result per job into it and the strategy then
closes it.  If the channel is already closed (a previous run completed), the
emission/close faults - in Go, send on a closed channel and close of a closed
channel both panic.  On success returns the pool with the channel closed and
the number of results emitted. -/
def runResultPhase (wp : WorkerPool T) : Except String (WorkerPool T × Nat) :=
  if wp.resultsClosed then .error "send on closed channel"
  else .ok ({ wp with resultsClosed := true }, wp.jobs.length)

/-- Chunk boundary computation of `runChunked`/`ChunkedStrategy.Execute`,
iterated over the worker indices: `end := start + chunkSize` plus one for the
first `remainder` workers; a worker is spawned on `jobs[start:end]` only when
`start < len(jobs)`.  Returns the list of `(start, end)` ranges actually
handed to workers. -/
def chunkRangesFrom (chunkSize remainder numJobs : Nat) :
    List Nat → Nat → List (Nat × Nat)
  | [], _ => []
  | i :: rest, start =>
    let stop := start + chunkSize + (if i < remainder then 1 else 0)
    (if start < numJobs then [(start, stop)] else []) ++
      chunkRangesFrom chunkSize remainder numJobs rest stop

/-- Chunk ranges produced by the chunked strategy for `numWorkers` workers and
`numJobs` jobs: `chunkSize := max(1, len(jobs)/NumWorkers)`,
`remainder := len(jobs) % NumWorkers`. -/
def chunkRanges (numWorkers numJobs : Nat) : List (Nat × Nat) :=
  chunkRangesFrom (max 1 (numJobs / numWorkers)) (numJobs % numWorkers) numJobs
    (List.range numWorkers) 0

/-- Retry loop of the shared `processJob` in strategies/common.go, with the
processor abstracted by which invocations fail (`procFails n = true` means the
`n`-th invocation, 0-based, returns an error).  `attempt` is the current loop
counter and `fuel` the number of loop iterations remaining
(`maxRetries - attempt + 1`).  Returns (error present at exit, number of
processor invocations performed, backoff sleeps in milliseconds in order).
In this version `break` correctly leaves the loop on the first success, and a
sleep of `(attempt+1) * 100ms` happens only when `attempt < maxRetries`. -/
def commonRetryFrom (procFails : Nat → Bool) : Nat → Nat → Bool × Nat × List Nat
  | _, 0 => (true, 0, [])
  | attempt, f + 1 =>
    if procFails attempt then
      if f = 0 then (true, 1, [])
      else
        let r := commonRetryFrom procFails (attempt + 1) f
        (r.1, r.2.1 + 1, (attempt + 1) * 100 :: r.2.2)
    else (false, 1, [])

/-- Full retry loop of strategies/common.go `processJob`:
`for attempt := 0; attempt <= maxRetries; attempt++`. -/
def commonRetry (procFails : Nat → Bool) (maxRetries : Nat) : Bool × Nat × List Nat :=
  commonRetryFrom procFails 0 (maxRetries + 1)

/-- Retry loop of `WorkerPool.processJob` in the workerpool package (run
context never cancelled).  There the `if err == nil { break }` sits inside a
`select` statement, so the `break` leaves the `select`, not the `for` loop:
every iteration invokes the processor, and the loop always performs
`maxRetries+1` invocations.  `errSoFar` is the current value of the `err`
variable; the final value is the last invocation's error. -/
def wpRetryFrom (procFails : Nat → Bool) : Nat → Nat → Bool → Bool × Nat × List Nat
  | _, 0, errSoFar => (errSoFar, 0, [])
  | attempt, f + 1, _ =>
    let e := procFails attempt
    let r := wpRetryFrom procFails (attempt + 1) f e
    (r.1, r.2.1 + 1, (if e ∧ f ≠ 0 then [(attempt + 1) * 100] else []) ++ r.2.2)

/-- Full retry loop of `WorkerPool.processJob`. -/
def wpRetry (procFails : Nat → Bool) (maxRetries : Nat) : Bool × Nat × List Nat :=
  wpRetryFrom procFails 0 (maxRetries + 1) false

/-- Retry loop of strategies/common.go `processJob` tracking the `result` and
`err` variables: the processor returns a value together with an error flag;
`result, err = processor(...)` overwrites both on every invocation, and the
emitted Result carries their final values (`Data: result`, `Error: err`). -/
def commonRetryDataFrom [Inhabited α] (proc : Nat → α × Bool) :
    Nat → Nat → α × Bool
  | _, 0 => (default, false)
  | attempt, f + 1 =>
    let v := proc attempt
    if v.2 then
      if f = 0 then (v.1, true) else commonRetryDataFrom proc (attempt + 1) f
    else (v.1, false)

/-- Final (Data, Error) pair emitted by strategies/common.go `processJob`. -/
def commonRetryData [Inhabited α] (proc : Nat → α × Bool) (maxRetries : Nat) : α × Bool :=
  commonRetryDataFrom proc 0 (maxRetries + 1)

/-- Parent from which the context handed to a processor invocation is
derived: the run context installed by `Run`, or `context.Background()`. -/
inductive ScopeParent where
  | runScope
  | background
  deriving DecidableEq, Repr

/-- Shape of the context passed to one processor invocation: its parent scope
and the per-attempt deadline attached to it (nanoseconds), if any. -/
structure AttemptScope where
  parent : ScopeParent
  deadline : Option Int
  deriving DecidableEq, Repr

/-- Context passed to the processor by `WorkerPool.processJob` (workerpool
package): `wp.processor(ctx, job)` receives the run context itself; no
`WorkerTimeout` deadline is ever attached there. -/
def wpAttemptScope (_config : Config) : AttemptScope :=
  ⟨.runScope, none⟩

/-- Context passed to the processor by the shared `processJob` in
strategies/common.go: `jobCtx := context.Background()`, and when
`config.WorkerTimeout > 0` it becomes
`context.WithTimeout(context.Background(), config.WorkerTimeout)` - derived
from the background context, not from the run context. -/
def stratAttemptScope (config : Config) : AttemptScope :=
  if config.workerTimeout > 0 then ⟨.background, some config.workerTimeout⟩
  else ⟨.background, none⟩

/-- PriorityQueue.shouldSwap on the two jobs read from the heap slice: true
when the parent job must be swapped below the child job - primary ordering by
higher priority first, secondary ordering FIFO by creation time
(`parentJob.Created.After(childJob.Created)`). -/
def shouldSwapJobs (parentJob childJob : Job T) : Bool :=
  if parentJob.priority ≠ childJob.priority then
    decide (childJob.priority > parentJob.priority)
  else decide (parentJob.created > childJob.created)

/-- PriorityQueue.shouldSwap on slice indices (out-of-range reads cannot occur
in the source; they are mapped to `false`). -/
def shouldSwapIdx (items : List (Job T)) (parent child : Nat) : Bool :=
  match items[parent]?, items[child]? with
  | some p, some c => shouldSwapJobs p c
  | _, _ => false

/-- Go parallel assignment `a[i], a[j] = a[j], a[i]` on a list. -/
def listSwap (l : List α) (i j : Nat) : List α :=
  match l[i]?, l[j]? with
  | some x, some y => (l.set i y).set j x
  | _, _ => l

/-- PriorityQueue.bubbleUp: while the index has a parent that compares lower,
swap with the parent and continue from the parent's index. -/
def bubbleUp (items : List (Job T)) (index : Nat) : List (Job T) :=
  if h : 0 < index then
    let parent := (index - 1) / 2
    if shouldSwapIdx items parent index then bubbleUp (listSwap items parent index) parent
    else items
  else items
termination_by index
decreasing_by
  simp_wf
  omega

/-- Index of the child (`smallest` in the source, actually the largest) that
one iteration of PriorityQueue.bubbleDown selects to swap with `index`:
first the left child is compared, then the right child against the winner. -/
def downTarget (items : List (Job T)) (index : Nat) : Nat :=
  let left := 2 * index + 1
  let right := 2 * index + 2
  let s1 := if left < items.length ∧ shouldSwapIdx items index left then left else index
  if right < items.length ∧ shouldSwapIdx items s1 right then right else s1

/-- PriorityQueue.bubbleDown: repeatedly swap `index` with its larger child
until the heap property holds locally. -/
def bubbleDown (items : List (Job T)) (index : Nat) : List (Job T) :=
  let s2 := downTarget items index
  if h : s2 = index then items
  else bubbleDown (listSwap items index s2) s2
termination_by items.length - index
decreasing_by
  simp_wf
  have hlen : (listSwap items index (downTarget items index)).length = items.length := by
    unfold listSwap
    cases h1 : items[index]? <;> cases h2 : items[downTarget items index]? <;> simp
  have hb : index < downTarget items index ∧ downTarget items index < items.length := by
    have h2 : ¬ downTarget items index = index := h
    unfold downTarget at h2 ⊢
    simp only [] at h2 ⊢
    split_ifs at h2 ⊢ <;> omega
  omega

/-- PriorityQueue.Push: append the job and bubble it up from the last index
(the per-priority fairness counter does not influence ordering and is not
modelled). -/
def pqPush (items : List (Job T)) (job : Job T) : List (Job T) :=
  bubbleUp (items ++ [job]) ((items ++ [job]).length - 1)

/-- PriorityQueue.Pop: return the root, move the last item to the root,
shrink, and bubble down from the root when nonempty. -/
def pqPop : List (Job T) → Option (Job T) × List (Job T)
  | [] => (none, [])
  | j :: rest =>
    let items1 := ((j :: rest).set 0 ((j :: rest).getLastD j)).dropLast
    (some j, if 0 < items1.length then bubbleDown items1 0 else items1)

/-- Repeatedly Pop until the queue reports empty (fuel-bounded; fuel is set to
the heap size by `popOrder`). -/
def pqPopAll : Nat → List (Job T) → List (Job T)
  | 0, _ => []
  | fuel + 1, items =>
    match pqPop items with
    | (none, _) => []
    | (some j, items') => j :: pqPopAll fuel items'

/-- Build the priority queue by pushing all jobs in order (the loop in
`runPriorityBased` / `PriorityBasedStrategy.Execute`). -/
def heapify (jobs : List (Job T)) : List (Job T) :=
  jobs.foldl pqPush []

/-- Sequence of jobs produced by popping the built queue until empty: the
order in which the single dispatcher feeds jobs to the work queue. -/
def popOrder (jobs : List (Job T)) : List (Job T) :=
  pqPopAll (heapify jobs).length (heapify jobs)

/-- Heap property of the slice: no child compares above its parent. -/
def IsHeap (items : List (Job T)) : Prop :=
  ∀ c, 0 < c → c < items.length → shouldSwapIdx items ((c - 1) / 2) c = false


/-- Chase-Lev-style work-stealing deque state (WorkStealingDeque): `bottom`
and `top` indices (Go `int`/`int32`, modelled as unbounded integers - one
sequential operation moves an index by at most one, far from any machine
bound) and the ring buffer.  Unwritten Go slots hold the zero value,
modelled by `default`. -/
structure WSDeque (α : Type) where
  bottom : Int
  top : Int
  buffer : List α
  deriving Repr

/-- NewWorkStealingDeque: non-positive initial sizes become 64; the buffer is
zero-initialized. -/
def NewWorkStealingDeque (α : Type) [Inhabited α] (initialSize : Int) : WSDeque α :=
  let n := if initialSize ≤ 0 then 64 else initialSize
  { bottom := 0, top := 0, buffer := List.replicate n.toNat default }

/-- WorkStealingDeque.grow: double the buffer and rehome the live entries
`i ∈ [top, bottom)` from `old[i % len]` to `new[i % newLen]`. -/
def wsGrow [Inhabited α] (d : WSDeque α) : List α :=
  (List.range (d.bottom - d.top).toNat).foldl
    (fun (acc : List α) (k : Nat) =>
      acc.set ((d.top + (k : Int)) % (2 * (d.buffer.length : Int))).toNat
        (d.buffer[((d.top + (k : Int)) % (d.buffer.length : Int)).toNat]?.getD default))
    (List.replicate (2 * d.buffer.length) default)

/-- WorkStealingDeque.Push: grow when `bottom - top >= len(buffer)`, store at
`bottom % len(buffer)`, increment `bottom`. -/
def wsPush [Inhabited α] (d : WSDeque α) (job : α) : WSDeque α :=
  let d := if d.bottom - d.top ≥ (d.buffer.length : Int) then
    { d with buffer := wsGrow d } else d
  { d with
    buffer := d.buffer.set ((d.bottom % (d.buffer.length : Int))).toNat job
    bottom := d.bottom + 1 }

/-- WorkStealingDeque.Pop: decrement `bottom`; on underrun restore
`bottom := top` and report empty; otherwise read at `bottom % len(buffer)`,
restoring `bottom := top` in the last-element case. -/
def wsPop [Inhabited α] (d : WSDeque α) : Option α × WSDeque α :=
  let bottom := d.bottom - 1
  let d1 : WSDeque α := { d with bottom := bottom }
  if d1.top > bottom then (none, { d1 with bottom := d1.top })
  else
    let job := d1.buffer[((bottom % (d1.buffer.length : Int))).toNat]?.getD default
    if d1.top = bottom then (some job, { d1 with bottom := d1.top })
    else (some job, d1)

/-- WorkStealingDeque.Steal: report empty when `top >= bottom`; otherwise
read at `top % len(buffer)` and increment `top`. -/
def wsSteal [Inhabited α] (d : WSDeque α) : Option α × WSDeque α :=
  if d.top ≥ d.bottom then (none, d)
  else
    let job := d.buffer[((d.top % (d.buffer.length : Int))).toNat]?.getD default
    (some job, { d with top := d.top + 1 })

/-- WorkStealingDeque.Size. -/
def wsSize (d : WSDeque α) : Int := d.bottom - d.top

/-- One sequential deque operation. -/
inductive DequeOp (α : Type) where
  | push (job : α)
  | pop
  | steal
  deriving Repr

/-- Apply one operation to the deque, returning the new state and the
delivered job, if any. -/
def wsStep [Inhabited α] (d : WSDeque α) : DequeOp α → WSDeque α × Option α
  | .push j => (wsPush d j, none)
  | .pop => ((wsPop d).2, (wsPop d).1)
  | .steal => ((wsSteal d).2, (wsSteal d).1)

/-- Apply a sequence of operations, collecting the outputs in order. -/
def wsRun [Inhabited α] (d : WSDeque α) : List (DequeOp α) → WSDeque α × List (Option α)
  | [] => (d, [])
  | op :: ops =>
    ((wsRun (wsStep d op).1 ops).1, (wsStep d op).2 :: (wsRun (wsStep d op).1 ops).2)

/-- Abstract sequential deque: the live contents as a list, oldest first.
Push appends at the young end; Pop takes the youngest (LIFO); Steal takes the
oldest (FIFO). -/
def absStep (q : List α) : DequeOp α → List α × Option α
  | .push j => (q ++ [j], none)
  | .pop => (q.dropLast, q.getLast?)
  | .steal => (q.tail, q.head?)

/-- Run the abstract deque over a sequence of operations. -/
def absRun (q : List α) : List (DequeOp α) → List α × List (Option α)
  | [] => (q, [])
  | op :: ops =>
    ((absRun (absStep q op).1 ops).1, (absStep q op).2 :: (absRun (absStep q op).1 ops).2)

/-- Jobs pushed by a sequence of operations, in order. -/
def pushedJobs : List (DequeOp α) → List α
  | [] => []
  | .push j :: ops => j :: pushedJobs ops
  | .pop :: ops => pushedJobs ops
  | .steal :: ops => pushedJobs ops

/-- Refinement relation between a concrete deque and the abstract contents:
indices are ordered and sized consistently and the ring window
`[top, bottom)` holds exactly the abstract list. -/
def DequeRep (d : WSDeque α) (q : List α) : Prop :=
  0 ≤ d.top ∧ d.top ≤ d.bottom ∧ d.bottom - d.top = q.length ∧
  0 < d.buffer.length ∧ (q.length : Int) ≤ (d.buffer.length : Int) ∧
  ∀ k : Nat, k < q.length →
    d.buffer[((d.top + k) % (d.buffer.length : Int)).toNat]? = q[k]?

/-- A sample job with a non-zero creation stamp. -/
def demoJob : Job Int := ⟨"1", 0, 0, 1⟩

/-- A pool as produced by `NewWithConfig` followed by `AddJobs` with one job. -/
def demoPool : WorkerPool Int := AddJobs (NewWithConfig Int DefaultConfig) [demoJob] 5

/-- Jobs of spec scenario S5: ("1",p=1,t=1), ("2",p=10,t=2), ("3",p=5,t=3). -/
def s5jobs : List (Job Int) :=
  [⟨"1", 0, 1, 1⟩, ⟨"2", 0, 10, 2⟩, ⟨"3", 0, 5, 3⟩]


/-- C3: the claim "every buffer_size value < 10 becomes exactly 10, including
zero and negative values" fails: `NewWithConfig` turns `BufferSize = 0` into
100 (the `BufferSize <= 0` branch runs first and the `< 10` clamp then does
not fire). -/
theorem clamp_bufferSize_zero_counterexample :
    (NewWithConfig Int { DefaultConfig with bufferSize := 0 }).config.bufferSize = 100 ∧
      ((100 : Int) = 10 → False) := by
  constructor
  · rfl
  · intro h
    cases h

/-- C3 (amended): characterization of the effective configuration built by
`NewWithConfig`: `num_workers ≤ 0` becomes 1, `buffer_size ≤ 0` becomes 100,
a positive `buffer_size < 10` becomes 10, `timeout ≤ 0` becomes 5 minutes,
and all other fields are taken as given; the results satisfy
`num_workers ≥ 1`, `buffer_size ≥ 10`, `timeout > 0`. -/
theorem clampConfig_characterization (T : Type) (c : Config) :
    (NewWithConfig T c).config = clampConfig c ∧
    (clampConfig c).numWorkers = (if c.numWorkers ≤ 0 then 1 else c.numWorkers) ∧
    (clampConfig c).bufferSize =
      (if c.bufferSize ≤ 0 then 100 else if c.bufferSize < 10 then 10 else c.bufferSize) ∧
    (clampConfig c).timeout = (if c.timeout ≤ 0 then fiveMinutes else c.timeout) ∧
    (clampConfig c).workerTimeout = c.workerTimeout ∧
    (clampConfig c).strategy = c.strategy ∧
    (clampConfig c).maxRetries = c.maxRetries ∧
    (clampConfig c).enableMetrics = c.enableMetrics ∧
    1 ≤ (clampConfig c).numWorkers ∧ 10 ≤ (clampConfig c).bufferSize ∧
    0 < (clampConfig c).timeout := by
  refine ⟨rfl, ?_⟩
  unfold clampConfig
  by_cases h1 : c.numWorkers ≤ 0 <;> by_cases h2 : c.bufferSize ≤ 0 <;>
    by_cases h3 : c.timeout ≤ 0 <;> by_cases h4 : c.bufferSize < 10 <;>
    simp [h1, h2, h3, h4, fiveMinutes] <;> omega

/-- C2: the claim "add_jobs is append-only" fails: starting from a pool
holding one job, `AddJobs` with a one-job batch leaves a single job (the new
batch replaces the old contents) and `total_jobs` is 1, not the combined
count 2. -/
theorem addJobs_not_append_counterexample :
    (AddJobs demoPool [⟨"2", 0, 0, 2⟩] 6).jobs = [⟨"2", 0, 0, 2⟩] ∧
    (AddJobs demoPool [⟨"2", 0, 0, 2⟩] 6).jobs ≠ demoPool.jobs ++ [⟨"2", 0, 0, 2⟩] ∧
    (AddJobs demoPool [⟨"2", 0, 0, 2⟩] 6).metrics.totalJobs = 1 ∧
    demoPool.metrics.totalJobs + 1 = 2 := by
  refine ⟨rfl, ?_, rfl, rfl⟩
  decide

/-- C2 (amended): `AddJobs` replaces the pool's job list with a stamped copy
of the batch and sets `total_jobs` to the batch length (discarding previously
added jobs); `AddJob` appends one stamped job and sets `total_jobs` to the new
length of the job list. -/
theorem addJobs_replaces_addJob_appends (T : Type) (wp : WorkerPool T)
    (jobs : List (Job T)) (job : Job T) (now : Int) :
    (AddJobs wp jobs now).jobs = jobs.map (stampJob now) ∧
    (AddJobs wp jobs now).metrics.totalJobs = jobs.length ∧
    (AddJob wp job now).jobs = wp.jobs ++ [stampJob now job] ∧
    (AddJob wp job now).metrics.totalJobs = wp.jobs.length + 1 ∧
    (AddJobs wp jobs now).config = wp.config ∧
    (AddJob wp job now).config = wp.config := by
  refine ⟨?_, ?_, rfl, rfl, rfl, rfl⟩
  · rfl
  · simp [AddJobs]

/-- C1: evaluating the chunk boundaries of the chunked strategy at
NumWorkers = 2 and a single job: worker 0 is spawned on the range `[0, 2)`,
which extends past `L = 1` (in Go, `jobs[0:2]` on a length-1, capacity-1
slice panics with a bounds error), and its size 2 is neither `⌊1/2⌋ = 0` nor
`⌈1/2⌉ = 1`.  The same happens at NumWorkers = 5 with 3 jobs, where worker 1
gets `[2, 4)` past `L = 3`. -/
theorem chunked_range_overflow :
    chunkRanges 2 1 = [(0, 2)] ∧ 1 < 2 ∧
    chunkRanges 5 3 = [(0, 2), (2, 4)] ∧ 3 < 4 := by
  refine ⟨?_, by omega, ?_, by omega⟩ <;> rfl

/-- C4: the claim "each processor invocation receives a scope derived from
the run scope, and when worker_timeout > 0 that scope carries the
worker_timeout deadline" fails at the default configuration
(WorkerTimeout = 30s > 0): the workerpool-package `processJob` passes the run
context with no deadline attached, and the strategies-package `processJob`
attaches the deadline to a context derived from `context.Background()`, not
from the run scope. -/
theorem perAttemptScope_counterexample :
    0 < DefaultConfig.workerTimeout ∧
    (wpAttemptScope DefaultConfig).deadline = none ∧
    (wpAttemptScope DefaultConfig).deadline ≠ some DefaultConfig.workerTimeout ∧
    (stratAttemptScope DefaultConfig).parent = ScopeParent.background ∧
    (stratAttemptScope DefaultConfig).parent ≠ ScopeParent.runScope := by
  refine ⟨by decide, rfl, by decide, by decide, by decide⟩

/-- C4 (amended): the pool's own `processJob` hands the processor the run
scope itself with no per-attempt deadline regardless of `worker_timeout`,
while the strategies' shared `processJob` derives the per-attempt scope from
the background scope (so an attempt does not observe run-scope cancellation)
and attaches the `worker_timeout` deadline exactly when `worker_timeout > 0`. -/
theorem perAttemptScope_actual (c : Config) :
    wpAttemptScope c = ⟨ScopeParent.runScope, none⟩ ∧
    (0 < c.workerTimeout →
      stratAttemptScope c = ⟨ScopeParent.background, some c.workerTimeout⟩) ∧
    (c.workerTimeout ≤ 0 → stratAttemptScope c = ⟨ScopeParent.background, none⟩) := by
  refine ⟨rfl, fun h => ?_, fun h => ?_⟩ <;> simp [stratAttemptScope] <;> omega

/-- Witness for `perAttemptScope_actual` at the default configuration. -/
theorem perAttemptScope_actual_witness :
    stratAttemptScope DefaultConfig = ⟨ScopeParent.background, some thirtySeconds⟩ :=
  (perAttemptScope_actual DefaultConfig).2.1 (by decide)

/-- C9: the claim "a second run() on the same pool executes without fault"
fails: the result channel is created once per pool in `NewWithConfig`, the
first completed run closes it, and a second run faults on the closed channel
(in Go: panic on send on / close of a closed channel). -/
theorem second_run_faults_counterexample :
    runResultPhase demoPool = .ok ({ demoPool with resultsClosed := true }, 1) ∧
    (runResultPhase demoPool).bind (fun pr => runResultPhase pr.1) =
      .error "send on closed channel" := by
  constructor <;> rfl

/-- C9 (amended): the result sink is constructed once per pool, not once per
run: a run over an open result channel emits one result per job and closes
the channel, and any later run on the same pool faults on the closed
channel - the pool is single-use. -/
theorem run_single_use (T : Type) (wp : WorkerPool T) :
    (wp.resultsClosed = false →
      runResultPhase wp = .ok ({ wp with resultsClosed := true }, wp.jobs.length)) ∧
    (wp.resultsClosed = true → runResultPhase wp = .error "send on closed channel") := by
  constructor <;> intro h <;> simp [runResultPhase, h]

/-- Witness for `run_single_use`: both branches at concrete pools. -/
theorem run_single_use_witness :
    runResultPhase demoPool = .ok ({ demoPool with resultsClosed := true }, 1) ∧
    runResultPhase { demoPool with resultsClosed := true } =
      .error "send on closed channel" :=
  ⟨(run_single_use Int demoPool).1 rfl,
    (run_single_use Int { demoPool with resultsClosed := true }).2 rfl⟩

/-- C10: Stop on a pool with no installed cancellation scope (a freshly
constructed pool, or one whose run has completed and cleared `cancel`) is a
harmless no-op: it invokes no cancel function, leaves the pool state
unchanged, and iterating it any number of times has the same effect;
`NewWithConfig` indeed starts with no cancel function installed. -/
theorem stop_without_scope_noop (T : Type) (wp : WorkerPool T)
    (h : wp.cancelInstalled = false) :
    Stop wp = (wp, false) ∧
    (∀ n : Nat, (fun p : WorkerPool T => (Stop p).1)^[n] wp = wp) ∧
    (∀ c : Config, (NewWithConfig T c).cancelInstalled = false) := by
  refine ⟨by simp [Stop, h], fun n => ?_, fun _ => rfl⟩
  have : (fun p : WorkerPool T => (Stop p).1) = id := rfl
  simp [this]

/-- Witness for `stop_without_scope_noop` at a freshly constructed pool. -/
theorem stop_without_scope_noop_witness :
    Stop (NewWithConfig Int DefaultConfig) = (NewWithConfig Int DefaultConfig, false) :=
  (stop_without_scope_noop Int (NewWithConfig Int DefaultConfig) rfl).1

/-- Error flag of the strategies/common.go retry loop against a processor
that fails its first `k` invocations and succeeds afterwards, from loop
counter `a` with `f` iterations remaining. -/
theorem commonRetryFrom_err (k : Nat) :
    ∀ f a, 1 ≤ f →
      (commonRetryFrom (fun n => decide (n < k)) a f).1 = decide (a + f ≤ k) := by
  intro f
  induction f with
  | zero => intro a h; omega
  | succ f ih =>
    intro a _
    by_cases ha : a < k
    · by_cases hf : f = 0
      · subst hf
        have h1 : a + 1 ≤ k := ha
        simp [commonRetryFrom, ha, h1]
      · have key := ih (a + 1) (by omega)
        have harith : a + 1 + f = a + (f + 1) := by omega
        rw [harith] at key
        simp [commonRetryFrom, ha, hf, key]
    · have h1 : ¬ (a + (f + 1) ≤ k) := by omega
      simp [commonRetryFrom, ha, h1]

/-- Invocation count of the strategies/common.go retry loop: the processor
runs until its first success or until the budget is exhausted. -/
theorem commonRetryFrom_count (k : Nat) :
    ∀ f a, 1 ≤ f →
      (commonRetryFrom (fun n => decide (n < k)) a f).2.1 = min (k - a + 1) f := by
  intro f
  induction f with
  | zero => intro a h; omega
  | succ f ih =>
    intro a _
    by_cases ha : a < k
    · by_cases hf : f = 0
      · subst hf
        simp [commonRetryFrom, ha] <;> omega
      · have key := ih (a + 1) (by omega)
        simp [commonRetryFrom, ha, hf, key] <;> omega
    · simp [commonRetryFrom, ha] <;> omega

/-- Backoff sleeps of the strategies/common.go retry loop: one sleep of
`(attempt+1) * 100` ms after each failed, non-final attempt. -/
theorem commonRetryFrom_sleeps (k : Nat) :
    ∀ f a, 1 ≤ f →
      (commonRetryFrom (fun n => decide (n < k)) a f).2.2 =
        (List.range (min (k - a) (f - 1))).map (fun i => (a + i + 1) * 100) := by
  intro f
  induction f with
  | zero => intro a h; omega
  | succ f ih =>
    intro a _
    by_cases ha : a < k
    · by_cases hf : f = 0
      · subst hf
        have h3 : min (k - a) 0 = 0 := by omega
        simp [commonRetryFrom, ha, h3]
      · have key := ih (a + 1) (by omega)
        have hmin : min (k - a) (f + 1 - 1) = min (k - (a + 1)) (f - 1) + 1 := by omega
        have hfun : ((fun i => (a + i + 1) * 100) ∘ Nat.succ) =
            (fun i => (a + 1 + i + 1) * 100) := by
          funext i
          simp only [Function.comp_apply]
          omega
        conv_rhs => rw [hmin, List.range_succ_eq_map]
        rw [List.map_cons, List.map_map, hfun, ← key]
        have ha0 : a + 0 + 1 = a + 1 := by omega
        rw [ha0]
        simp [commonRetryFrom, ha, hf]
    · have h3 : min (k - a) (f + 1 - 1) = 0 := by omega
      simp [commonRetryFrom, ha, h3] <;> omega

/-- Error flag of the workerpool-package `WorkerPool.processJob` retry loop
(whose `break` on success only leaves the enclosing `select`): the final
error is the last invocation's error. -/
theorem wpRetryFrom_err (k : Nat) :
    ∀ f a e, 1 ≤ f →
      (wpRetryFrom (fun n => decide (n < k)) a f e).1 = decide (a + f - 1 < k) := by
  intro f
  induction f with
  | zero => intro a e h; omega
  | succ f ih =>
    intro a e _
    by_cases hf : f = 0
    · subst hf
      simp [wpRetryFrom]
    · have key := ih (a + 1) (decide (a < k)) (by omega)
      have harith : a + 1 + f - 1 = a + (f + 1) - 1 := by omega
      rw [harith] at key
      simp only [wpRetryFrom]
      rw [key]

/-- Invocation count of the workerpool-package retry loop: every iteration
invokes the processor, so the count is always the full budget `f`. -/
theorem wpRetryFrom_count (k : Nat) :
    ∀ f a e, (wpRetryFrom (fun n => decide (n < k)) a f e).2.1 = f := by
  intro f
  induction f with
  | zero => intro a e; rfl
  | succ f ih =>
    intro a e
    simp [wpRetryFrom, ih (a + 1)]

/-- Backoff sleeps of the workerpool-package retry loop coincide with the
common one: a sleep happens only after a failed, non-final attempt. -/
theorem wpRetryFrom_sleeps (k : Nat) :
    ∀ f a e, 1 ≤ f →
      (wpRetryFrom (fun n => decide (n < k)) a f e).2.2 =
        (List.range (min (k - a) (f - 1))).map (fun i => (a + i + 1) * 100) := by
  intro f
  induction f with
  | zero => intro a e h; omega
  | succ f ih =>
    intro a e _
    by_cases hf : f = 0
    · subst hf
      have h3 : min (k - a) 0 = 0 := by omega
      simp [wpRetryFrom, h3]
    · by_cases ha : a < k
      · have key := ih (a + 1) (decide (a < k)) (by omega)
        have hmin : min (k - a) (f + 1 - 1) = min (k - (a + 1)) (f - 1) + 1 := by omega
        have hfun : ((fun i => (a + i + 1) * 100) ∘ Nat.succ) =
            (fun i => (a + 1 + i + 1) * 100) := by
          funext i
          simp only [Function.comp_apply]
          omega
        conv_rhs => rw [hmin, List.range_succ_eq_map]
        rw [List.map_cons, List.map_map, hfun, ← key]
        have ha0 : a + 0 + 1 = a + 1 := by omega
        rw [ha0]
        simp [wpRetryFrom, ha, hf]
      · have key := ih (a + 1) false (by omega)
        have h1 : min (k - a) (f + 1 - 1) = 0 := by omega
        have h2 : min (k - (a + 1)) (f - 1) = 0 := by omega
        rw [h2] at key
        simp [wpRetryFrom, ha, h1, key] <;> omega

/-- C7: retry exactness holds for the shared strategies/common.go
`processJob` - against a processor failing its first `k` invocations the job
succeeds iff `k ≤ max_retries`, the processor runs `min(k+1, maxRetries+1)`
times, and the backoff before retry `a` (1-based) is `a * 100` ms - but the
workerpool-package `WorkerPool.processJob` diverges: its `break` on success
sits inside a `select` and only leaves the `select`, so the loop always
performs `maxRetries + 1` invocations; concretely, with `max_retries = 2` and
a processor succeeding on its first invocation (`k = 0`) it invokes the
processor 3 times where the claim requires `min(0+1, 2+1) = 1`. -/
theorem retry_exactness_break_in_select (k m : Nat) :
    (commonRetry (fun n => decide (n < k)) m).1 = decide (m < k) ∧
    (commonRetry (fun n => decide (n < k)) m).2.1 = min (k + 1) (m + 1) ∧
    (commonRetry (fun n => decide (n < k)) m).2.2 =
      (List.range (min k m)).map (fun i => (i + 1) * 100) ∧
    (wpRetry (fun n => decide (n < k)) m).1 = decide (m < k) ∧
    (wpRetry (fun n => decide (n < k)) m).2.1 = m + 1 ∧
    wpRetry (fun n => decide (n < 0)) 2 = (false, 3, []) ∧
    min (0 + 1) (2 + 1) = 1 := by
  refine ⟨?_, ?_, ?_, ?_, ?_, by rfl, by omega⟩
  · simp only [commonRetry]
    rw [commonRetryFrom_err k (m + 1) 0 (by omega)]
    exact decide_eq_decide.mpr (by omega)
  · simp only [commonRetry]
    rw [commonRetryFrom_count k (m + 1) 0 (by omega)]
    omega
  · simp only [commonRetry]
    rw [commonRetryFrom_sleeps k (m + 1) 0 (by omega)]
    have hr : min (k - 0) (m + 1 - 1) = min k m := by omega
    rw [hr]
    exact List.map_congr_left (fun i _ => by omega)
  · simp only [wpRetry]
    rw [wpRetryFrom_err k (m + 1) 0 false (by omega)]
    exact decide_eq_decide.mpr (by omega)
  · simp only [wpRetry]
    rw [wpRetryFrom_count k (m + 1) 0 false]

/-- Stepwise characterization of the (Data, Error) pair tracked by the
strategies/common.go retry loop: the final pair is exactly what the processor
returned on some invocation `a + j`, all earlier invocations failed, and that
final invocation either succeeded or was the last allowed one. -/
theorem commonRetryDataFrom_spec [Inhabited α] (proc : Nat → α × Bool) :
    ∀ f a, 1 ≤ f →
      ∃ j, j < f ∧ commonRetryDataFrom proc a f = proc (a + j) ∧
        (∀ i, i < j → (proc (a + i)).2 = true) ∧
        ((proc (a + j)).2 = false ∨ j = f - 1) := by
  intro f
  induction f with
  | zero => intro a h; omega
  | succ f ih =>
    intro a _
    cases he : (proc a).2 with
    | false =>
      refine ⟨0, by omega, ?_, fun i hi => absurd hi (by omega), Or.inl (by simpa using he)⟩
      simp only [commonRetryDataFrom, he, Bool.false_eq_true, if_false, Nat.add_zero]
      exact Prod.ext rfl he.symm
    | true =>
      by_cases hf : f = 0
      · subst hf
        refine ⟨0, by omega, ?_, fun i hi => absurd hi (by omega), Or.inr rfl⟩
        simp only [commonRetryDataFrom, he, if_true, if_pos rfl, Nat.add_zero]
        exact Prod.ext rfl he.symm
      · obtain ⟨j, hj, heq, hall, hlast⟩ := ih (a + 1) (by omega)
        refine ⟨j + 1, by omega, ?_, ?_, ?_⟩
        · simp only [commonRetryDataFrom, he, if_true, if_neg hf]
          rw [heq]
          congr 1
          omega
        · intro i hi
          cases i with
          | zero => simpa using he
          | succ i =>
            have := hall i (by omega)
            have harith : a + 1 + i = a + (i + 1) := by omega
            rwa [harith] at this
        · rcases hlast with h | h
          · left
            have harith : a + 1 + j = a + (j + 1) := by omega
            rwa [harith] at h
          · right
            omega

/-- C8: the claim "the data field equals the zero value of R on failure,
regardless of what the processor returned alongside its errors" fails: with
`max_retries = 0` and a processor returning the pair (7, error), the emitted
result carries error present and data 7, not the zero value 0. -/
theorem failed_result_data_counterexample :
    commonRetryData (fun _ => ((7 : Int), true)) 0 = (7, true) ∧ (7 : Int) ≠ 0 := by
  exact ⟨rfl, by decide⟩

/-- C8 (amended): the emitted (Data, Error) pair is exactly what the
processor returned on its final invocation: the first successful invocation,
or invocation `max_retries` when every attempt failed.  The data field is the
zero value only when the processor itself returns the zero value alongside
its error. -/
theorem commonRetryData_final_attempt [Inhabited α] (proc : Nat → α × Bool) (m : Nat) :
    ∃ i, i ≤ m ∧ commonRetryData proc m = proc i ∧
      (∀ j, j < i → (proc j).2 = true) ∧ ((proc i).2 = false ∨ i = m) := by
  obtain ⟨j, hj, heq, hall, hlast⟩ := commonRetryDataFrom_spec proc (m + 1) 0 (by omega)
  refine ⟨j, by omega, ?_, ?_, ?_⟩
  · simpa [commonRetryData] using heq
  · intro i hi
    simpa using hall i hi
  · rcases hlast with h | h
    · exact Or.inl (by simpa using h)
    · exact Or.inr (by omega)

/-- An index holding a value is in range. -/
theorem getElem?_some_lt {l : List α} {k : Nat} {x : α} (h : l[k]? = some x) :
    k < l.length := by
  by_contra hk
  rw [List.getElem?_eq_none (by omega)] at h
  cases h

/-- Every in-range index holds a value. -/
theorem exists_getElem?_some {l : List α} {k : Nat} (h : k < l.length) :
    ∃ x, l[k]? = some x :=
  ⟨l.get ⟨k, h⟩, List.getElem?_eq_getElem h⟩

/-- Characterization of the heap comparison: the parent must move below the
child iff it has strictly lower priority, or equal priority and a strictly
later creation time. -/
theorem shouldSwapJobs_iff (a b : Job T) :
    shouldSwapJobs a b = true ↔
      a.priority < b.priority ∨ (a.priority = b.priority ∧ b.created < a.created) := by
  unfold shouldSwapJobs
  split_ifs with h <;> simp only [decide_eq_true_eq] <;> omega

/-- Negated characterization of the heap comparison. -/
theorem shouldSwapJobs_false_iff (a b : Job T) :
    shouldSwapJobs a b = false ↔
      b.priority < a.priority ∨ (a.priority = b.priority ∧ a.created ≤ b.created) := by
  have h := shouldSwapJobs_iff a b
  cases hsw : shouldSwapJobs a b <;> rw [hsw] at h <;> simp_all <;> omega

/-- The heap comparison is irreflexive. -/
theorem shouldSwapJobs_irrefl (a : Job T) : shouldSwapJobs a a = false := by
  rw [shouldSwapJobs_false_iff]
  omega

/-- The heap comparison is asymmetric. -/
theorem shouldSwapJobs_asymm {a b : Job T} (h : shouldSwapJobs a b = true) :
    shouldSwapJobs b a = false := by
  rw [shouldSwapJobs_iff] at h
  rw [shouldSwapJobs_false_iff]
  omega

/-- The heap comparison is transitive. -/
theorem shouldSwapJobs_trans {a b c : Job T} (h1 : shouldSwapJobs a b = true)
    (h2 : shouldSwapJobs b c = true) : shouldSwapJobs a c = true := by
  rw [shouldSwapJobs_iff] at h1 h2 ⊢
  omega

/-- Not-below is transitive. -/
theorem shouldSwapJobs_false_trans {a b c : Job T} (h1 : shouldSwapJobs a b = false)
    (h2 : shouldSwapJobs b c = false) : shouldSwapJobs a c = false := by
  rw [shouldSwapJobs_false_iff] at h1 h2 ⊢
  omega

/-- If `a` is not below `c` but is below `b`, then `b` is not below `c`. -/
theorem shouldSwapJobs_false_of_true_false {a b c : Job T}
    (h1 : shouldSwapJobs a b = true) (h2 : shouldSwapJobs a c = false) :
    shouldSwapJobs b c = false := by
  rw [shouldSwapJobs_iff] at h1
  rw [shouldSwapJobs_false_iff] at h2 ⊢
  omega

/-- Index form of the comparison rewritten through the stored jobs. -/
theorem shouldSwapIdx_eq {items : List (Job T)} {p c : Nat} {pj cj : Job T}
    (hp : items[p]? = some pj) (hc : items[c]? = some cj) :
    shouldSwapIdx items p c = shouldSwapJobs pj cj := by
  unfold shouldSwapIdx
  rw [hp, hc]

/-- A true index comparison exhibits the two stored jobs. -/
theorem shouldSwapIdx_true_elim {items : List (Job T)} {p c : Nat}
    (h : shouldSwapIdx items p c = true) :
    ∃ pj cj, items[p]? = some pj ∧ items[c]? = some cj ∧ shouldSwapJobs pj cj = true := by
  unfold shouldSwapIdx at h
  cases hp : items[p]? with
  | none => rw [hp] at h; cases h
  | some pj =>
    cases hc : items[c]? with
    | none => rw [hp, hc] at h; cases h
    | some cj =>
      rw [hp, hc] at h
      exact ⟨pj, cj, rfl, rfl, h⟩

/-- The index comparison only depends on the two read cells. -/
theorem shouldSwapIdx_congr {items items' : List (Job T)} {p c : Nat}
    (hp : items'[p]? = items[p]?) (hc : items'[c]? = items[c]?) :
    shouldSwapIdx items' p c = shouldSwapIdx items p c := by
  unfold shouldSwapIdx
  rw [hp, hc]

/-- Length is preserved by `listSwap`. -/
@[simp]
theorem listSwap_length (l : List α) (i j : Nat) :
    (listSwap l i j).length = l.length := by
  unfold listSwap
  cases h1 : l[i]? <;> cases h2 : l[j]? <;> simp

/-- Reading the first swapped position yields the other original value. -/
theorem listSwap_getElem?_left (l : List α) {i j : Nat} (hi : i < l.length)
    (hj : j < l.length) : (listSwap l i j)[i]? = l[j]? := by
  unfold listSwap
  rw [List.getElem?_eq_getElem hi, List.getElem?_eq_getElem hj]
  by_cases hij : i = j
  · subst hij
    rw [List.getElem?_set_eq (by simpa using hi)]
  · rw [List.getElem?_set_ne (fun hji => hij hji.symm), List.getElem?_set_eq hi]

/-- Reading the second swapped position yields the other original value. -/
theorem listSwap_getElem?_right (l : List α) {i j : Nat} (hi : i < l.length)
    (hj : j < l.length) : (listSwap l i j)[j]? = l[i]? := by
  unfold listSwap
  rw [List.getElem?_eq_getElem hi, List.getElem?_eq_getElem hj]
  rw [List.getElem?_set_eq (by simpa using hj)]

/-- Reading any other position is unaffected by the swap. -/
theorem listSwap_getElem?_other (l : List α) {i j k : Nat} (h1 : k ≠ i) (h2 : k ≠ j) :
    (listSwap l i j)[k]? = l[k]? := by
  unfold listSwap
  cases hi : l[i]? with
  | none => rfl
  | some x =>
    cases hj : l[j]? with
    | none => rfl
    | some y =>
      rw [List.getElem?_set_ne (fun hk => h2 hk.symm),
        List.getElem?_set_ne (fun hk => h1 hk.symm)]

/-- Moving the `k`-th element of a list to the front while writing `a` at
position `k` is a permutation of pushing `a` at the front. -/
theorem getSwap_cons_perm :
    ∀ (t : List α) (k : Nat) (hk : k < t.length) (a : α),
      (t.get ⟨k, hk⟩ :: t.set k a).Perm (a :: t) := by
  intro t
  induction t with
  | nil => intro k hk a; exact absurd hk (by simp)
  | cons b t ih =>
    intro k hk a
    cases k with
    | zero =>
      simpa using List.Perm.swap a b t
    | succ k =>
      have hk' : k < t.length := by simpa using hk
      have step1 : (t.get ⟨k, hk'⟩ :: b :: t.set k a).Perm
          (b :: t.get ⟨k, hk'⟩ :: t.set k a) := List.Perm.swap _ _ _
      have step2 : (b :: t.get ⟨k, hk'⟩ :: t.set k a).Perm (b :: a :: t) :=
        (ih k hk' a).cons b
      simpa using (step1.trans step2).trans (List.Perm.swap _ _ _)

/-- Swapping two in-range positions permutes the list. -/
theorem set_set_perm :
    ∀ (l : List α) (i j : Nat) (hi : i < l.length) (hj : j < l.length),
      ((l.set i (l.get ⟨j, hj⟩)).set j (l.get ⟨i, hi⟩)).Perm l := by
  intro l
  induction l with
  | nil => intro i j hi _; exact absurd hi (by simp)
  | cons a t ih =>
    intro i j hi hj
    cases i with
    | zero =>
      cases j with
      | zero => simp
      | succ j =>
        have hj' : j < t.length := by simpa using hj
        simpa using getSwap_cons_perm t j hj' a
    | succ i =>
      cases j with
      | zero =>
        have hi' : i < t.length := by simpa using hi
        simpa using getSwap_cons_perm t i hi' a
      | succ j =>
        have hi' : i < t.length := by simpa using hi
        have hj' : j < t.length := by simpa using hj
        simpa using (ih i j hi' hj').cons a

/-- `listSwap` permutes the list. -/
theorem listSwap_perm (l : List α) (i j : Nat) : (listSwap l i j).Perm l := by
  by_cases hi : i < l.length
  · by_cases hj : j < l.length
    · have hx : l[i]? = some (l.get ⟨i, hi⟩) := List.getElem?_eq_getElem hi
      have hy : l[j]? = some (l.get ⟨j, hj⟩) := List.getElem?_eq_getElem hj
      unfold listSwap
      rw [hx, hy]
      exact set_set_perm l i j hi hj
    · unfold listSwap
      rw [List.getElem?_eq_none (by omega) (l := l) (n := j)]
      cases l[i]? <;> rfl
  · unfold listSwap
    rw [List.getElem?_eq_none (by omega) (l := l) (n := i)]


/-- In a heap the root is not below any element (index form). -/
theorem isHeap_root_max {items : List (Job T)} (hh : IsHeap items) :
    ∀ i, i < items.length → ∀ r x, items[0]? = some r → items[i]? = some x →
      shouldSwapJobs r x = false := by
  intro i
  induction i using Nat.strong_induction_on with
  | _ i ih =>
    intro hi r x h0 hx
    rcases Nat.eq_zero_or_pos i with h | hpos
    · subst h
      rw [h0] at hx
      cases hx
      exact shouldSwapJobs_irrefl r
    · have hp : (i - 1) / 2 < i := by omega
      have hplen : (i - 1) / 2 < items.length := by omega
      obtain ⟨pj, hpj⟩ := exists_getElem?_some hplen
      have hedge := hh i hpos hi
      rw [shouldSwapIdx_eq hpj hx] at hedge
      exact shouldSwapJobs_false_trans (ih _ hp hplen r pj h0 hpj) hedge

/-- In a nonempty heap the head is not below any member. -/
theorem isHeap_head_max {j : Job T} {rest : List (Job T)} (hh : IsHeap (j :: rest)) :
    ∀ x ∈ j :: rest, shouldSwapJobs j x = false := by
  intro x hx
  obtain ⟨i, hi, hget⟩ := List.mem_iff_getElem.mp hx
  exact isHeap_root_max hh i hi j x (by simp) (by rw [List.getElem?_eq_getElem hi, hget])

/-- Correctness of bubbleUp: if every parent edge holds except possibly the
one into `i`, and the grandparent of `i` already dominates the children of
`i`, then bubbling up from `i` restores the heap property, permuting the
slice. -/
theorem bubbleUp_correct :
    ∀ (i : Nat) (items : List (Job T)),
      (∀ c, 0 < c → c < items.length → c ≠ i →
        shouldSwapIdx items ((c - 1) / 2) c = false) →
      (∀ c, 0 < c → c < items.length → (c - 1) / 2 = i →
        shouldSwapIdx items ((i - 1) / 2) c = false) →
      IsHeap (bubbleUp items i) ∧ (bubbleUp items i).Perm items := by
  intro i
  induction i using Nat.strong_induction_on with
  | _ i ih =>
    intro items hup hgrand
    rw [bubbleUp]
    by_cases h0 : 0 < i
    · rw [dif_pos h0]
      simp only []
      by_cases hsw : shouldSwapIdx items ((i - 1) / 2) i = true
      · rw [if_pos hsw]
        obtain ⟨pj, xj, hpj, hxj, hswj⟩ := shouldSwapIdx_true_elim hsw
        have hplen : (i - 1) / 2 < items.length := getElem?_some_lt hpj
        have hilen : i < items.length := getElem?_some_lt hxj
        have hpi : (i - 1) / 2 < i := by omega
        have hlen' : (listSwap items ((i - 1) / 2) i).length = items.length :=
          listSwap_length items _ i
        have hg_p : (listSwap items ((i - 1) / 2) i)[(i - 1) / 2]? = some xj := by
          rw [listSwap_getElem?_left items hplen hilen]
          exact hxj
        have hg_i : (listSwap items ((i - 1) / 2) i)[i]? = some pj := by
          rw [listSwap_getElem?_right items hplen hilen]
          exact hpj
        have hg_other : ∀ k, k ≠ (i - 1) / 2 → k ≠ i →
            (listSwap items ((i - 1) / 2) i)[k]? = items[k]? :=
          fun k hk1 hk2 => listSwap_getElem?_other items hk1 hk2
        have hup' : ∀ c, 0 < c → c < (listSwap items ((i - 1) / 2) i).length →
            c ≠ (i - 1) / 2 →
            shouldSwapIdx (listSwap items ((i - 1) / 2) i) ((c - 1) / 2) c = false := by
          intro c hc0 hclen hcp
          rw [hlen'] at hclen
          by_cases hci : c = i
          · subst hci
            rw [shouldSwapIdx_eq hg_p hg_i]
            exact shouldSwapJobs_asymm hswj
          · obtain ⟨cj, hcj⟩ := exists_getElem?_some hclen
            have hcq : (c - 1) / 2 < c := by omega
            have hg_c : (listSwap items ((i - 1) / 2) i)[c]? = items[c]? :=
              hg_other c hcp hci
            by_cases hqp : (c - 1) / 2 = (i - 1) / 2
            · rw [hqp]
              rw [shouldSwapIdx_eq hg_p (hg_c.trans hcj)]
              have hold := hup c hc0 hclen hci
              rw [hqp, shouldSwapIdx_eq hpj hcj] at hold
              exact shouldSwapJobs_false_of_true_false hswj hold
            · by_cases hqi : (c - 1) / 2 = i
              · have hold := hgrand c hc0 hclen hqi
                rw [shouldSwapIdx_eq hpj hcj] at hold
                rw [hqi]
                rw [shouldSwapIdx_eq hg_i (hg_c.trans hcj)]
                exact hold
              · have hg_q : (listSwap items ((i - 1) / 2) i)[(c - 1) / 2]? =
                    items[(c - 1) / 2]? := hg_other _ hqp hqi
                rw [shouldSwapIdx_congr hg_q hg_c]
                exact hup c hc0 hclen hci
        have hgrand' : ∀ c, 0 < c → c < (listSwap items ((i - 1) / 2) i).length →
            (c - 1) / 2 = (i - 1) / 2 →
            shouldSwapIdx (listSwap items ((i - 1) / 2) i)
              (((i - 1) / 2 - 1) / 2) c = false := by
          intro c hc0 hclen hcq
          rw [hlen'] at hclen
          by_cases hp0 : (i - 1) / 2 = 0
          · have := hup' c hc0 (by rw [hlen']; exact hclen) (by omega)
            rw [hcq, hp0] at this
            rw [hp0]
            simpa using this
          · have hg : ((i - 1) / 2 - 1) / 2 < (i - 1) / 2 := by omega
            have hglen : ((i - 1) / 2 - 1) / 2 < items.length := by omega
            obtain ⟨gj, hgj⟩ := exists_getElem?_some hglen
            have hg_g : (listSwap items ((i - 1) / 2) i)[((i - 1) / 2 - 1) / 2]? =
                items[((i - 1) / 2 - 1) / 2]? :=
              hg_other _ (by omega) (by omega)
            have holdgp := hup ((i - 1) / 2) (by omega) hplen (by omega)
            rw [shouldSwapIdx_eq hgj hpj] at holdgp
            by_cases hci : c = i
            · subst hci
              rw [shouldSwapIdx_eq (hg_g.trans hgj) hg_i]
              exact holdgp
            · obtain ⟨cj, hcj⟩ := exists_getElem?_some hclen
              have hg_c : (listSwap items ((i - 1) / 2) i)[c]? = items[c]? :=
                hg_other c (by omega) hci
              rw [shouldSwapIdx_eq (hg_g.trans hgj) (hg_c.trans hcj)]
              have holdpc := hup c hc0 hclen hci
              rw [hcq, shouldSwapIdx_eq hpj hcj] at holdpc
              exact shouldSwapJobs_false_trans holdgp holdpc
        obtain ⟨hheap, hperm⟩ := ih ((i - 1) / 2) hpi (listSwap items ((i - 1) / 2) i)
          hup' hgrand'
        exact ⟨hheap, hperm.trans (listSwap_perm items _ i)⟩
      · rw [if_neg hsw]
        refine ⟨?_, List.Perm.refl items⟩
        intro c hc0 hclen
        by_cases hci : c = i
        · subst hci
          exact Bool.eq_false_iff.mpr hsw
        · exact hup c hc0 hclen hci
    · rw [dif_neg h0]
      refine ⟨?_, List.Perm.refl items⟩
      intro c hc0 hclen
      exact hup c hc0 hclen (by omega)


/-- Index-level transitivity of the comparison. -/
theorem shouldSwapIdx_trans {items : List (Job T)} {a b c : Nat}
    (hab : shouldSwapIdx items a b = true) (hbc : shouldSwapIdx items b c = true) :
    shouldSwapIdx items a c = true := by
  obtain ⟨aj, bj, ha, hb, h1⟩ := shouldSwapIdx_true_elim hab
  obtain ⟨bj2, cj, hb2, hc, h2⟩ := shouldSwapIdx_true_elim hbc
  rw [hb] at hb2
  cases hb2
  rw [shouldSwapIdx_eq ha hc]
  exact shouldSwapJobs_trans h1 h2

/-- Index-level asymmetry of the comparison. -/
theorem shouldSwapIdx_asymm {items : List (Job T)} {a b : Nat}
    (h : shouldSwapIdx items a b = true) : shouldSwapIdx items b a = false := by
  obtain ⟨aj, bj, ha, hb, h1⟩ := shouldSwapIdx_true_elim h
  rw [shouldSwapIdx_eq hb ha]
  exact shouldSwapJobs_asymm h1

/-- Index-level mixed transitivity: `a` below `b` but not below `c` makes `b`
not below `c`. -/
theorem shouldSwapIdx_false_of_true_false {items : List (Job T)} {a b c : Nat}
    (h1 : shouldSwapIdx items a b = true) (h2 : shouldSwapIdx items a c = false)
    (hc : c < items.length) : shouldSwapIdx items b c = false := by
  obtain ⟨aj, bj, ha, hb, hj1⟩ := shouldSwapIdx_true_elim h1
  obtain ⟨cj, hcj⟩ := exists_getElem?_some hc
  rw [shouldSwapIdx_eq ha hcj] at h2
  rw [shouldSwapIdx_eq hb hcj]
  exact shouldSwapJobs_false_of_true_false hj1 h2

/-- When bubbleDown selects a swap target, the target is the dominant child:
a strictly larger in-range index, a child of `index`, strictly above the job
at `index`, and not below the other child. -/
theorem downTarget_spec (items : List (Job T)) (i : Nat) (h : downTarget items i ≠ i) :
    i < downTarget items i ∧ downTarget items i < items.length ∧
    (downTarget items i - 1) / 2 = i ∧
    shouldSwapIdx items i (downTarget items i) = true ∧
    (∀ c, 0 < c → c < items.length → (c - 1) / 2 = i → c ≠ downTarget items i →
      shouldSwapIdx items (downTarget items i) c = false) := by
  by_cases h1 : 2 * i + 1 < items.length ∧ shouldSwapIdx items i (2 * i + 1) = true
  · by_cases h2 : 2 * i + 2 < items.length ∧
        shouldSwapIdx items (2 * i + 1) (2 * i + 2) = true
    · have ht : downTarget items i = 2 * i + 2 := by
        unfold downTarget
        simp only [if_pos h1, if_pos h2]
      rw [ht]
      refine ⟨by omega, h2.1, by omega, shouldSwapIdx_trans h1.2 h2.2, ?_⟩
      intro c hc0 hclen hcpar hcne
      have hc : c = 2 * i + 1 := by omega
      rw [hc]
      exact shouldSwapIdx_asymm h2.2
    · have ht : downTarget items i = 2 * i + 1 := by
        unfold downTarget
        simp only [if_pos h1, if_neg h2]
      rw [ht]
      refine ⟨by omega, h1.1, by omega, h1.2, ?_⟩
      intro c hc0 hclen hcpar hcne
      have hc : c = 2 * i + 2 := by omega
      rw [hc]
      have hns : ¬ shouldSwapIdx items (2 * i + 1) (2 * i + 2) = true := fun hs =>
        h2 ⟨by omega, hs⟩
      exact Bool.eq_false_iff.mpr hns
  · by_cases h2 : 2 * i + 2 < items.length ∧ shouldSwapIdx items i (2 * i + 2) = true
    · have ht : downTarget items i = 2 * i + 2 := by
        unfold downTarget
        simp only [if_neg h1, if_pos h2]
      rw [ht]
      refine ⟨by omega, h2.1, by omega, h2.2, ?_⟩
      intro c hc0 hclen hcpar hcne
      have hc : c = 2 * i + 1 := by omega
      rw [hc]
      have hf : shouldSwapIdx items i (2 * i + 1) = false :=
        Bool.eq_false_iff.mpr (fun hs => h1 ⟨by omega, hs⟩)
      exact shouldSwapIdx_false_of_true_false h2.2 hf (by omega)
    · have ht : downTarget items i = i := by
        unfold downTarget
        simp only [if_neg h1, if_neg h2]
      exact absurd ht h

/-- When bubbleDown selects no swap target, both child edges of `index`
already hold. -/
theorem downTarget_eq_spec (items : List (Job T)) (i : Nat)
    (h : downTarget items i = i) :
    ∀ c, 0 < c → c < items.length → (c - 1) / 2 = i →
      shouldSwapIdx items i c = false := by
  intro c hc0 hclen hcpar
  by_cases hsw : shouldSwapIdx items i c = true
  · exfalso
    have hc : c = 2 * i + 1 ∨ c = 2 * i + 2 := by omega
    have hne := downTarget_spec items i
    by_cases h1 : 2 * i + 1 < items.length ∧ shouldSwapIdx items i (2 * i + 1) = true
    · have ht : downTarget items i ≠ i := by
        by_cases h2 : 2 * i + 2 < items.length ∧
            shouldSwapIdx items (2 * i + 1) (2 * i + 2) = true
        · have : downTarget items i = 2 * i + 2 := by
            unfold downTarget
            simp only [if_pos h1, if_pos h2]
          omega
        · have : downTarget items i = 2 * i + 1 := by
            unfold downTarget
            simp only [if_pos h1, if_neg h2]
          omega
      exact ht h
    · rcases hc with hc | hc
      · exact h1 ⟨by omega, by rw [← hc]; exact hsw⟩
      · have h2 : 2 * i + 2 < items.length ∧ shouldSwapIdx items i (2 * i + 2) = true :=
          ⟨by omega, by rw [← hc]; exact hsw⟩
        have ht : downTarget items i = 2 * i + 2 := by
          unfold downTarget
          simp only [if_neg h1, if_pos h2]
        omega
  · exact Bool.eq_false_iff.mpr hsw

/-- Correctness of bubbleDown: if every parent edge holds except possibly the
two out of `i`, and (when `i` has a parent) that parent already dominates the
children of `i`, then bubbling down from `i` restores the heap property,
permuting the slice. -/
theorem bubbleDown_correct :
    ∀ (n : Nat) (items : List (Job T)) (i : Nat), items.length - i ≤ n →
      (∀ c, 0 < c → c < items.length → (c - 1) / 2 ≠ i →
        shouldSwapIdx items ((c - 1) / 2) c = false) →
      (0 < i → ∀ c, c < items.length → (c - 1) / 2 = i →
        shouldSwapIdx items ((i - 1) / 2) c = false) →
      IsHeap (bubbleDown items i) ∧ (bubbleDown items i).Perm items := by
  intro n
  induction n with
  | zero =>
    intro items i hn hdown hgrand
    rw [bubbleDown]
    have ht : downTarget items i = i := by
      by_contra hne
      have := downTarget_spec items i hne
      omega
    rw [dif_pos ht]
    refine ⟨?_, List.Perm.refl items⟩
    intro c hc0 hclen
    by_cases hpc : (c - 1) / 2 = i
    · rw [hpc]
      exact downTarget_eq_spec items i ht c hc0 hclen hpc
    · exact hdown c hc0 hclen hpc
  | succ n ih =>
    intro items i hn hdown hgrand
    rw [bubbleDown]
    by_cases ht : downTarget items i = i
    · rw [dif_pos ht]
      refine ⟨?_, List.Perm.refl items⟩
      intro c hc0 hclen
      by_cases hpc : (c - 1) / 2 = i
      · rw [hpc]
        exact downTarget_eq_spec items i ht c hc0 hclen hpc
      · exact hdown c hc0 hclen hpc
    · rw [dif_neg ht]
      obtain ⟨hit, htlen, htpar, hswit, hdom⟩ := downTarget_spec items i ht
      obtain ⟨ij, tj, hij, htj, hswj⟩ := shouldSwapIdx_true_elim hswit
      have hilen : i < items.length := getElem?_some_lt hij
      have hlen' : (listSwap items i (downTarget items i)).length = items.length :=
        listSwap_length items i _
      have hg_i : (listSwap items i (downTarget items i))[i]? = some tj := by
        rw [listSwap_getElem?_left items hilen htlen]
        exact htj
      have hg_t : (listSwap items i (downTarget items i))[downTarget items i]? =
          some ij := by
        rw [listSwap_getElem?_right items hilen htlen]
        exact hij
      have hg_other : ∀ k, k ≠ i → k ≠ downTarget items i →
          (listSwap items i (downTarget items i))[k]? = items[k]? :=
        fun k hk1 hk2 => listSwap_getElem?_other items hk1 hk2
      have hdown' : ∀ c, 0 < c → c < (listSwap items i (downTarget items i)).length →
          (c - 1) / 2 ≠ downTarget items i →
          shouldSwapIdx (listSwap items i (downTarget items i)) ((c - 1) / 2) c =
            false := by
        intro c hc0 hclen hpc
        rw [hlen'] at hclen
        by_cases hct : c = downTarget items i
        · subst hct
          rw [htpar, shouldSwapIdx_eq hg_i hg_t]
          exact shouldSwapJobs_asymm hswj
        · by_cases hci : c = i
          · rw [hci]
            have hi0 : 0 < i := by omega
            have hpar_ne_t : (i - 1) / 2 ≠ downTarget items i := by omega
            have hpar_ne_i : (i - 1) / 2 ≠ i := by omega
            have hg_p : (listSwap items i (downTarget items i))[(i - 1) / 2]? =
                items[(i - 1) / 2]? := hg_other _ hpar_ne_i hpar_ne_t
            have hold := hgrand hi0 (downTarget items i) htlen htpar
            obtain ⟨gj, hgj⟩ := exists_getElem?_some (show (i - 1) / 2 < items.length by omega)
            rw [shouldSwapIdx_eq hgj htj] at hold
            rw [shouldSwapIdx_eq (hg_p.trans hgj) hg_i]
            exact hold
          · have hg_c : (listSwap items i (downTarget items i))[c]? = items[c]? :=
              hg_other c hci hct
            obtain ⟨cj, hcj⟩ := exists_getElem?_some hclen
            by_cases hpi : (c - 1) / 2 = i
            · rw [hpi]
              have hold := hdom c hc0 hclen hpi hct
              rw [shouldSwapIdx_eq htj hcj] at hold
              rw [shouldSwapIdx_eq hg_i (hg_c.trans hcj)]
              exact hold
            · have hg_q : (listSwap items i (downTarget items i))[(c - 1) / 2]? =
                  items[(c - 1) / 2]? := hg_other _ hpi hpc
              rw [shouldSwapIdx_congr hg_q hg_c]
              exact hdown c hc0 hclen hpi
      have hgrand' : 0 < downTarget items i →
          ∀ c, c < (listSwap items i (downTarget items i)).length →
          (c - 1) / 2 = downTarget items i →
          shouldSwapIdx (listSwap items i (downTarget items i))
            ((downTarget items i - 1) / 2) c = false := by
        intro _ c hclen hcpar
        rw [hlen'] at hclen
        have hct : c ≠ downTarget items i := by omega
        have hci : c ≠ i := by omega
        have hg_c : (listSwap items i (downTarget items i))[c]? = items[c]? :=
          hg_other c hci hct
        obtain ⟨cj, hcj⟩ := exists_getElem?_some hclen
        have hold := hdown c (by omega) hclen (by omega)
        rw [hcpar, shouldSwapIdx_eq htj hcj] at hold
        rw [htpar, shouldSwapIdx_eq hg_i (hg_c.trans hcj)]
        exact hold
      obtain ⟨hheap, hperm⟩ := ih (listSwap items i (downTarget items i))
        (downTarget items i) (by rw [hlen']; omega) hdown' hgrand'
      exact ⟨hheap, hperm.trans (listSwap_perm items i _)⟩


/-- Reading a non-final position of `dropLast`. -/
theorem dropLast_getElem? {l : List α} {k : Nat} (h : k < l.length - 1) :
    l.dropLast[k]? = l[k]? := by
  rw [List.getElem?_eq_getElem (by simp; omega), List.getElem?_eq_getElem (by omega)]
  simp [List.getElem_dropLast]

/-- PriorityQueue.Push preserves the heap property and appends the job. -/
theorem pqPush_correct {items : List (Job T)} (hh : IsHeap items) (job : Job T) :
    IsHeap (pqPush items job) ∧ (pqPush items job).Perm (items ++ [job]) := by
  unfold pqPush
  apply bubbleUp_correct
  · intro c hc0 hclen hcne
    have hlen : (items ++ [job]).length = items.length + 1 := by simp
    have hcl : c < items.length := by omega
    have hq : (c - 1) / 2 < items.length := by omega
    have hgc : (items ++ [job])[c]? = items[c]? := List.getElem?_append_left hcl
    have hgq : (items ++ [job])[(c - 1) / 2]? = items[(c - 1) / 2]? :=
      List.getElem?_append_left hq
    rw [shouldSwapIdx_congr hgq hgc]
    exact hh c hc0 hcl
  · intro c hc0 hclen hpar
    exfalso
    simp only [List.length_append, List.length_singleton] at hclen hpar
    omega

/-- PriorityQueue.Pop returns the root, preserves the heap property, and
removes exactly one copy of the root from the multiset. -/
theorem pqPop_correct {j : Job T} {rest : List (Job T)} (hh : IsHeap (j :: rest)) :
    (pqPop (j :: rest)).1 = some j ∧
    IsHeap (pqPop (j :: rest)).2 ∧ ((pqPop (j :: rest)).2).Perm rest := by
  have hlen1 : (((j :: rest).set 0 ((j :: rest).getLastD j)).dropLast).length =
      rest.length := by simp
  have hmem : ∀ k, 0 < k → k < rest.length →
      (((j :: rest).set 0 ((j :: rest).getLastD j)).dropLast)[k]? = (j :: rest)[k]? := by
    intro k hk0 hk
    rw [dropLast_getElem? (by simp; omega)]
    exact List.getElem?_set_ne (by omega)
  have hperm1 : (((j :: rest).set 0 ((j :: rest).getLastD j)).dropLast).Perm rest := by
    cases rest with
    | nil => simp
    | cons r rs =>
      have hne : (r :: rs) ≠ [] := by simp
      have hlast : (j :: r :: rs).getLastD j = (r :: rs).getLast hne := by
        simp [List.getLastD_eq_getLast?, List.getLast?_eq_getLast]
      rw [hlast]
      have hset : (j :: r :: rs).set 0 ((r :: rs).getLast hne) =
          (r :: rs).getLast hne :: r :: rs := by simp
      rw [hset]
      have hdl : ((r :: rs).getLast hne :: r :: rs).dropLast =
          (r :: rs).getLast hne :: (r :: rs).dropLast := by
        simp
      rw [hdl]
      calc ((r :: rs).getLast hne :: (r :: rs).dropLast).Perm
            ((r :: rs).dropLast ++ [(r :: rs).getLast hne]) :=
          (List.perm_append_singleton _ _).symm
        _ = (r :: rs) := List.dropLast_append_getLast hne
  refine ⟨rfl, ?_, ?_⟩ <;> unfold pqPop <;> simp only []
  · by_cases hpos :
        0 < (((j :: rest).set 0 ((j :: rest).getLastD j)).dropLast).length
    · rw [if_pos hpos]
      refine (bubbleDown_correct _ _ 0 (le_refl _) ?_ ?_).1
      · intro c hc0 hclen hpc
        rw [hlen1] at hclen
        have hq0 : 0 < (c - 1) / 2 := by omega
        rw [shouldSwapIdx_congr (hmem _ hq0 (by omega)) (hmem c hc0 hclen)]
        exact hh c hc0 (by simp; omega)
      · intro h0
        exact absurd h0 (by omega)
    · rw [if_neg hpos]
      intro c hc0 hclen
      exact absurd hclen (by omega)
  · by_cases hpos :
        0 < (((j :: rest).set 0 ((j :: rest).getLastD j)).dropLast).length
    · rw [if_pos hpos]
      refine ((bubbleDown_correct _ _ 0 (le_refl _) ?_ ?_).2).trans hperm1
      · intro c hc0 hclen hpc
        rw [hlen1] at hclen
        have hq0 : 0 < (c - 1) / 2 := by omega
        rw [shouldSwapIdx_congr (hmem _ hq0 (by omega)) (hmem c hc0 hclen)]
        exact hh c hc0 (by simp; omega)
      · intro h0
        exact absurd h0 (by omega)
    · rw [if_neg hpos]
      exact hperm1

/-- Popping a heap to exhaustion yields a permutation of its contents, sorted
so that no element is below a later one. -/
theorem pqPopAll_correct :
    ∀ (fuel : Nat) (items : List (Job T)), IsHeap items → items.length ≤ fuel →
      (pqPopAll fuel items).Perm items ∧
      List.Pairwise (fun a b => shouldSwapJobs a b = false) (pqPopAll fuel items) := by
  intro fuel
  induction fuel with
  | zero =>
    intro items hh hlen
    have h0 : items = [] := List.length_eq_zero.mp (by omega)
    subst h0
    exact ⟨List.Perm.refl _, List.Pairwise.nil⟩
  | succ fuel ih =>
    intro items hh hlen
    cases items with
    | nil => exact ⟨List.Perm.refl _, List.Pairwise.nil⟩
    | cons j rest =>
      obtain ⟨hfst, hheap1, hperm1⟩ := pqPop_correct hh
      have hpair : pqPop (j :: rest) = (some j, (pqPop (j :: rest)).2) :=
        Prod.ext hfst rfl
      have hstep : pqPopAll (fuel + 1) (j :: rest) =
          j :: pqPopAll fuel (pqPop (j :: rest)).2 := by
        conv_lhs => rw [pqPopAll, hpair]
      rw [hstep]
      have hlen2 : (pqPop (j :: rest)).2.length ≤ fuel := by
        have := hperm1.length_eq
        simp only [List.length_cons] at hlen
        omega
      obtain ⟨hperm2, hpw2⟩ := ih (pqPop (j :: rest)).2 hheap1 hlen2
      constructor
      · exact (hperm2.trans hperm1).cons j
      · refine List.Pairwise.cons ?_ hpw2
        intro b hb
        have hbrest : b ∈ rest := hperm1.mem_iff.mp (hperm2.mem_iff.mp hb)
        exact isHeap_head_max hh b (List.mem_cons_of_mem j hbrest)

/-- Building the queue by pushing all jobs yields a heap holding exactly the
pushed jobs. -/
theorem heapify_correct (jobs : List (Job T)) :
    IsHeap (heapify jobs) ∧ (heapify jobs).Perm jobs := by
  unfold heapify
  suffices h : ∀ (js acc : List (Job T)), IsHeap acc →
      IsHeap (js.foldl pqPush acc) ∧ (js.foldl pqPush acc).Perm (acc ++ js) by
    have hnil : IsHeap ([] : List (Job T)) := fun c hc0 hc => absurd hc (by simp)
    simpa using h jobs [] hnil
  intro js
  induction js with
  | nil =>
    intro acc hacc
    refine ⟨hacc, ?_⟩
    simpa using List.Perm.refl acc
  | cons j js ih =>
    intro acc hacc
    obtain ⟨hh1, hp1⟩ := pqPush_correct hacc j
    obtain ⟨hh2, hp2⟩ := ih (pqPush acc j) hh1
    refine ⟨hh2, ?_⟩
    have heq : (acc ++ [j]) ++ js = acc ++ j :: js := by simp
    exact hp2.trans (heq ▸ hp1.append_right js)


/-- C5: for every finite batch of jobs pushed into the priority queue in
which jobs of equal priority have pairwise distinct created timestamps,
popping until empty returns the jobs sorted by priority descending and,
within equal priority, by created ascending. -/
theorem priority_queue_pop_sorted (T : Type) (jobs : List (Job T))
    (hdist : List.Pairwise
      (fun a b => a.priority = b.priority → a.created ≠ b.created) jobs) :
    (popOrder jobs).Perm jobs ∧
    List.Pairwise (fun a b =>
      b.priority < a.priority ∨ (a.priority = b.priority ∧ a.created < b.created))
      (popOrder jobs) := by
  obtain ⟨hh, hp⟩ := heapify_correct jobs
  obtain ⟨hperm, hpw⟩ :=
    pqPopAll_correct (heapify jobs).length (heapify jobs) hh (le_refl _)
  have hperm2 : (popOrder jobs).Perm jobs := hperm.trans hp
  refine ⟨hperm2, ?_⟩
  have hsymm : Symmetric
      (fun a b : Job T => a.priority = b.priority → a.created ≠ b.created) := by
    intro a b hab heq hcr
    exact hab heq.symm hcr.symm
  have hdist2 : List.Pairwise
      (fun a b => a.priority = b.priority → a.created ≠ b.created)
      (popOrder jobs) := (List.Perm.pairwise_iff (fun hab => hsymm hab) hperm2).mpr hdist
  have hcomb := hpw.and hdist2
  refine hcomb.imp ?_
  intro a b hab
  obtain ⟨h1, h2⟩ := hab
  rw [shouldSwapJobs_false_iff] at h1
  rcases h1 with h1 | ⟨heq, hle⟩
  · exact Or.inl h1
  · exact Or.inr ⟨heq, lt_of_le_of_ne hle (h2 heq)⟩

/-- Witness for `priority_queue_pop_sorted` on the S5 scenario jobs. -/
theorem priority_queue_pop_sorted_witness :
    (popOrder s5jobs).Perm s5jobs ∧
    List.Pairwise (fun a b =>
      b.priority < a.priority ∨ (a.priority = b.priority ∧ a.created < b.created))
      (popOrder s5jobs) :=
  priority_queue_pop_sorted Int s5jobs (by decide)


/-- A remainder modulo a positive integer is a valid `toNat` index bound. -/
theorem emod_toNat_lt {a n : Int} (h : 0 < n) : (a % n).toNat < n.toNat := by
  have h1 := Int.emod_nonneg a (by omega : n ≠ 0)
  have h2 := Int.emod_lt_of_pos a h
  omega

/-- Two distinct values within one modulus-width window have distinct
remainders. -/
theorem emod_ne_of_window {a b n : Int} (hn : 0 < n) (hab : a < b) (hw : b - a < n) :
    a % n ≠ b % n := by
  intro he
  have h0 : (a - b) % n = 0 := Int.emod_eq_emod_iff_emod_sub_eq_zero.mp he
  have hd : n ∣ a - b := Int.dvd_of_emod_eq_zero h0
  have hd2 : n ∣ b - a := by
    have := dvd_neg.mpr hd
    rwa [neg_sub] at this
  have := Int.le_of_dvd (by omega) hd2
  omega

/-- Folding indexed writes over a list preserves its length. -/
theorem foldl_set_length {β : Type} (l : List β) (f : β → Nat) (g : β → α)
    (acc : List α) :
    (l.foldl (fun a k => a.set (f k) (g k)) acc).length = acc.length := by
  induction l generalizing acc with
  | nil => rfl
  | cons b l ih => simp [ih]

/-- A cell no write targets keeps its value under a fold of writes. -/
theorem foldl_set_getElem?_of_ne {β : Type} (l : List β) (f : β → Nat) (g : β → α)
    (acc : List α) (i : Nat) (h : ∀ k ∈ l, f k ≠ i) :
    (l.foldl (fun a k => a.set (f k) (g k)) acc)[i]? = acc[i]? := by
  induction l generalizing acc with
  | nil => rfl
  | cons b l ih =>
    rw [List.foldl_cons, ih _ (fun k hk => h k (List.mem_cons_of_mem b hk))]
    exact List.getElem?_set_ne (h b (List.mem_cons_self b l))

/-- With pairwise distinct targets, a fold of writes over `range n` leaves
each written cell holding its value. -/
theorem foldl_range_set_getElem? (f : Nat → Nat) (g : Nat → α) :
    ∀ (n : Nat) (acc : List α) (k0 : Nat), k0 < n →
      (∀ a b, a < n → b < n → f a = f b → a = b) → f k0 < acc.length →
      ((List.range n).foldl (fun a k => a.set (f k) (g k)) acc)[f k0]? = some (g k0) := by
  intro n
  induction n with
  | zero => intro acc k0 hk0; omega
  | succ n ih =>
    intro acc k0 hk0 hinj hlt
    rw [List.range_succ, List.foldl_append, List.foldl_cons, List.foldl_nil]
    by_cases hk : k0 = n
    · subst hk
      exact List.getElem?_set_eq (by rw [foldl_set_length]; exact hlt)
    · rw [List.getElem?_set_ne (fun he => hk (hinj n k0 (by omega) (by omega) he).symm)]
      exact ih acc k0 (by omega) (fun a b ha hb => hinj a b (by omega) (by omega)) hlt

/-- The grown buffer has twice the length. -/
theorem wsGrow_length [Inhabited α] (d : WSDeque α) :
    (wsGrow d).length = 2 * d.buffer.length := by
  unfold wsGrow
  rw [foldl_set_length]
  simp

/-- Rehoming preserves the live window: after growth every abstract cell is
found at its index modulo the doubled capacity. -/
theorem wsGrow_getElem? [Inhabited α] (d : WSDeque α) (q : List α)
    (hrep : DequeRep d q) (hfull : (q.length : Int) = (d.buffer.length : Int))
    (k : Nat) (hk : k < q.length) :
    (wsGrow d)[((d.top + k) % (2 * (d.buffer.length : Int))).toNat]? = q[k]? := by
  obtain ⟨h0, h1, h2, h3, h4, h5⟩ := hrep
  unfold wsGrow
  have hn : (d.bottom - d.top).toNat = q.length := by omega
  rw [hn]
  have hmain := foldl_range_set_getElem?
    (fun k => ((d.top + (k : Int)) % (2 * (d.buffer.length : Int))).toNat)
    (fun k => (d.buffer[((d.top + (k : Int)) % (d.buffer.length : Int)).toNat]?).getD default)
    q.length (List.replicate (2 * d.buffer.length) default) k hk ?_ ?_
  · simp only [] at hmain
    rw [hmain]
    obtain ⟨v, hv⟩ := exists_getElem?_some hk
    rw [h5 k hk, hv]
    simp
  · intro a b ha hb he
    simp only [] at he
    rcases Nat.lt_trichotomy a b with hab | hab | hab
    · exfalso
      have hne := emod_ne_of_window (a := d.top + a) (b := d.top + b)
        (n := 2 * (d.buffer.length : Int)) (by omega) (by omega) (by omega)
      have hnn1 : 0 ≤ (d.top + (a : Int)) % (2 * (d.buffer.length : Int)) :=
        Int.emod_nonneg _ (by omega)
      have hnn2 : 0 ≤ (d.top + (b : Int)) % (2 * (d.buffer.length : Int)) :=
        Int.emod_nonneg _ (by omega)
      omega
    · exact hab
    · exfalso
      have hne := emod_ne_of_window (a := d.top + b) (b := d.top + a)
        (n := 2 * (d.buffer.length : Int)) (by omega) (by omega) (by omega)
      have hnn1 : 0 ≤ (d.top + (a : Int)) % (2 * (d.buffer.length : Int)) :=
        Int.emod_nonneg _ (by omega)
      have hnn2 : 0 ≤ (d.top + (b : Int)) % (2 * (d.buffer.length : Int)) :=
        Int.emod_nonneg _ (by omega)
      omega
  · simp only [List.length_replicate]
    have h6 := emod_toNat_lt (a := d.top + k) (n := 2 * (d.buffer.length : Int)) (by omega)
    omega


/-- A fresh deque represents the empty contents. -/
theorem newDeque_rep (α : Type) [Inhabited α] (n : Int) :
    DequeRep (NewWorkStealingDeque α n) [] := by
  unfold NewWorkStealingDeque
  refine ⟨le_refl 0, le_refl 0, by simp, ?_, ?_, fun k hk => absurd hk (by simp)⟩
  · simp only [List.length_replicate]
    split_ifs with h <;> omega
  · simp only [List.length_replicate, List.length_nil]
    split_ifs with h <;> omega

/-- Push refines appending at the young end of the abstract contents. -/
theorem wsPush_rep [Inhabited α] {d : WSDeque α} {q : List α} (h : DequeRep d q)
    (j : α) : DequeRep (wsPush d j) (q ++ [j]) := by
  obtain ⟨h0, h1, h2, h3, h4, h5⟩ := h
  unfold wsPush
  by_cases hg : d.bottom - d.top ≥ (d.buffer.length : Int)
  · simp only [if_pos hg]
    have hfull : (q.length : Int) = (d.buffer.length : Int) := by omega
    have hlen2 : (wsGrow d).length = 2 * d.buffer.length := wsGrow_length d
    unfold DequeRep
    dsimp only
    refine ⟨h0, by omega, ?_, ?_, ?_, ?_⟩
    · simp only [List.length_append, List.length_singleton]
      omega
    · simp only [List.length_set, hlen2]
      omega
    · simp only [List.length_set, hlen2, List.length_append, List.length_singleton]
      push_cast
      omega
    · intro k hk
      simp only [List.length_append, List.length_singleton] at hk
      simp only [List.length_set, hlen2, Nat.cast_mul, Nat.cast_ofNat]
      by_cases hke : k = q.length
      · subst hke
        have hb : d.top + (q.length : Int) = d.bottom := by omega
        rw [hb, List.getElem?_set_eq, List.getElem?_concat_length]
        rw [hlen2]
        have := emod_toNat_lt (a := d.bottom) (n := 2 * (d.buffer.length : Int))
          (by omega)
        push_cast at this ⊢
        omega
      · have hklt : k < q.length := by omega
        have hne : ((d.top + (k : Int)) % (2 * (d.buffer.length : Int))) ≠
            (d.bottom % (2 * (d.buffer.length : Int))) :=
          emod_ne_of_window (by omega) (by omega) (by omega)
        have hnn1 : 0 ≤ (d.top + (k : Int)) % (2 * (d.buffer.length : Int)) :=
          Int.emod_nonneg _ (by omega)
        have hnn2 : 0 ≤ d.bottom % (2 * (d.buffer.length : Int)) :=
          Int.emod_nonneg _ (by omega)
        rw [List.getElem?_set_ne (by omega), List.getElem?_append_left hklt]
        exact wsGrow_getElem? d q ⟨h0, h1, h2, h3, h4, h5⟩ hfull k hklt
  · simp only [if_neg hg]
    unfold DequeRep
    dsimp only
    refine ⟨h0, by omega, ?_, ?_, ?_, ?_⟩
    · simp only [List.length_append, List.length_singleton]
      omega
    · simp only [List.length_set]
      omega
    · simp only [List.length_set, List.length_append, List.length_singleton]
      push_cast
      omega
    · intro k hk
      simp only [List.length_append, List.length_singleton] at hk
      simp only [List.length_set]
      by_cases hke : k = q.length
      · subst hke
        have hb : d.top + (q.length : Int) = d.bottom := by omega
        rw [hb, List.getElem?_set_eq, List.getElem?_concat_length]
        have := emod_toNat_lt (a := d.bottom) (n := (d.buffer.length : Int)) (by omega)
        omega
      · have hklt : k < q.length := by omega
        have hne : ((d.top + (k : Int)) % (d.buffer.length : Int)) ≠
            (d.bottom % (d.buffer.length : Int)) :=
          emod_ne_of_window (by omega) (by omega) (by omega)
        have hnn1 : 0 ≤ (d.top + (k : Int)) % (d.buffer.length : Int) :=
          Int.emod_nonneg _ (by omega)
        have hnn2 : 0 ≤ d.bottom % (d.buffer.length : Int) :=
          Int.emod_nonneg _ (by omega)
        rw [List.getElem?_set_ne (by omega), List.getElem?_append_left hklt]
        exact h5 k hklt

/-- Pop refines removing the youngest element (LIFO). -/
theorem wsPop_rep [Inhabited α] {d : WSDeque α} {q : List α} (h : DequeRep d q) :
    (wsPop d).1 = q.getLast? ∧ DequeRep (wsPop d).2 q.dropLast := by
  obtain ⟨h0, h1, h2, h3, h4, h5⟩ := h
  unfold wsPop
  cases q with
  | nil =>
    have hcond : d.top > d.bottom - 1 := by
      simp only [List.length_nil, Nat.cast_zero] at h2
      omega
    simp only [if_pos hcond]
    unfold DequeRep
    dsimp only
    exact ⟨rfl, h0, le_refl _, by simp, h3, by simp,
      fun k hk => absurd hk (by simp)⟩
  | cons x rest =>
    have hq1 : 1 ≤ (x :: rest).length := by simp
    have hcond : ¬ (d.top > d.bottom - 1) := by
      simp only [List.length_cons] at h2
      push_cast at h2
      omega
    simp only [if_neg hcond]
    have hkey := h5 ((x :: rest).length - 1) (by omega)
    have hidx : d.top + (((x :: rest).length - 1 : Nat) : Int) = d.bottom - 1 := by
      push_cast [List.length_cons]
      simp only [List.length_cons] at h2
      push_cast at h2
      omega
    rw [hidx] at hkey
    obtain ⟨v, hv⟩ := exists_getElem?_some
      (show (x :: rest).length - 1 < (x :: rest).length by omega)
    rw [hv] at hkey
    have hlastv : (x :: rest).getLast? = some v := by
      rw [List.getLast?_eq_getElem?]
      exact hv
    by_cases hone : d.top = d.bottom - 1
    · simp only [if_pos hone]
      have hlen1 : (x :: rest).length = 1 := by
        simp only [List.length_cons] at h2 ⊢
        push_cast at h2
        omega
      have hdrop : (x :: rest).dropLast = [] := by
        have := List.length_dropLast (x :: rest)
        rw [hlen1] at this
        exact List.length_eq_zero.mp (by omega)
      rw [hdrop]
      unfold DequeRep
      dsimp only
      refine ⟨?_, h0, le_refl _, by simp, h3, by simp,
        fun k hk => absurd hk (by simp)⟩
      simp only [hkey, hlastv]
      simp
    · simp only [if_neg hone]
      unfold DequeRep
      dsimp only
      refine ⟨?_, h0, by omega, ?_, h3, ?_, ?_⟩
      · simp only [hkey, hlastv]
        simp
      · rw [List.length_dropLast]
        simp only [List.length_cons] at h2 ⊢
        push_cast at h2 ⊢
        omega
      · rw [List.length_dropLast]
        push_cast
        push_cast at h4
        omega
      · intro k hk
        rw [List.length_dropLast] at hk
        rw [dropLast_getElem? hk]
        exact h5 k (by omega)

/-- Steal refines removing the oldest element (FIFO). -/
theorem wsSteal_rep [Inhabited α] {d : WSDeque α} {q : List α} (h : DequeRep d q) :
    (wsSteal d).1 = q.head? ∧ DequeRep (wsSteal d).2 q.tail := by
  obtain ⟨h0, h1, h2, h3, h4, h5⟩ := h
  unfold wsSteal
  cases q with
  | nil =>
    have hcond : d.top ≥ d.bottom := by
      simp only [List.length_nil, Nat.cast_zero] at h2
      omega
    simp only [if_pos hcond]
    exact ⟨rfl, h0, h1, h2, h3, h4, h5⟩
  | cons x rest =>
    have hcond : ¬ (d.top ≥ d.bottom) := by
      simp only [List.length_cons] at h2
      push_cast at h2
      omega
    simp only [if_neg hcond]
    have hkey := h5 0 (by simp)
    simp only [Nat.cast_zero, Int.add_zero] at hkey
    constructor
    · simp only [hkey]
      simp
    · unfold DequeRep
      dsimp only
      refine ⟨by omega, ?_, ?_, h3, ?_, ?_⟩
      · simp only [List.length_cons] at h2
        push_cast at h2
        omega
      · simp only [List.tail_cons, List.length_cons] at *
        push_cast at h2 ⊢
        omega
      · simp only [List.tail_cons, List.length_cons] at *
        push_cast at h4 ⊢
        omega
      · intro k hk
        simp only [List.tail_cons] at hk ⊢
        have := h5 (k + 1) (by simp; omega)
        have hc : d.top + 1 + (k : Int) = d.top + ((k + 1 : Nat) : Int) := by
          push_cast
          omega
        rw [hc, this]
        simp

/-- The concrete run produces exactly the abstract outputs and ends related
to the abstract contents. -/
theorem wsRun_sim [Inhabited α] :
    ∀ (ops : List (DequeOp α)) (d : WSDeque α) (q : List α), DequeRep d q →
      (wsRun d ops).2 = (absRun q ops).2 ∧
      DequeRep (wsRun d ops).1 (absRun q ops).1 := by
  intro ops
  induction ops with
  | nil => exact fun d q h => ⟨rfl, h⟩
  | cons op ops ih =>
    intro d q h
    cases op with
    | push j =>
      obtain ⟨ho, hr⟩ := ih (wsPush d j) (q ++ [j]) (wsPush_rep h j)
      constructor
      · simp only [wsRun, absRun, wsStep, absStep, ho]
      · simpa only [wsRun, absRun, wsStep, absStep] using hr
    | pop =>
      obtain ⟨ho1, hr1⟩ := wsPop_rep h
      obtain ⟨ho, hr⟩ := ih (wsPop d).2 q.dropLast hr1
      constructor
      · simp only [wsRun, absRun, wsStep, absStep, ho, ho1]
      · simpa only [wsRun, absRun, wsStep, absStep] using hr
    | steal =>
      obtain ⟨ho1, hr1⟩ := wsSteal_rep h
      obtain ⟨ho, hr⟩ := ih (wsSteal d).2 q.tail hr1
      constructor
      · simp only [wsRun, absRun, wsStep, absStep, ho, ho1]
      · simpa only [wsRun, absRun, wsStep, absStep] using hr

/-- Conservation in the abstract model: delivered outputs plus remaining
contents are a permutation of initial contents plus pushed jobs. -/
theorem absRun_conservation :
    ∀ (ops : List (DequeOp α)) (q : List α),
      ((((absRun q ops).2).filterMap id) ++ (absRun q ops).1).Perm
        (q ++ pushedJobs ops) := by
  intro ops
  induction ops with
  | nil =>
    intro q
    simp only [absRun, pushedJobs, List.filterMap_nil, List.nil_append, List.append_nil]
    exact List.Perm.refl q
  | cons op ops ih =>
    intro q
    cases op with
    | push j =>
      have := ih (q ++ [j])
      simp only [absRun, absStep, pushedJobs, List.filterMap_cons_none, List.append_assoc,
        List.singleton_append] at this ⊢
      exact this
    | pop =>
      cases q with
      | nil =>
        have := ih ([] : List α)
        simp only [absRun, absStep, pushedJobs, List.getLast?_nil, List.dropLast_nil,
          List.filterMap_cons_none, List.nil_append] at this ⊢
        exact this
      | cons x rest =>
        have hne : (x :: rest) ≠ [] := by simp
        have hlast : (x :: rest).getLast? = some ((x :: rest).getLast hne) :=
          List.getLast?_eq_getLast _ hne
        have hsplit : (x :: rest).dropLast ++ [(x :: rest).getLast hne] = x :: rest :=
          List.dropLast_append_getLast hne
        have hih := ih (x :: rest).dropLast
        simp only [absRun, absStep, pushedJobs, hlast, List.filterMap_cons_some,
          List.cons_append] at hih ⊢
        have step1 := hih.cons ((x :: rest).getLast hne)
        have step2 : (((x :: rest).getLast hne :: (x :: rest).dropLast) ++
              pushedJobs ops).Perm
            (((x :: rest).dropLast ++ [(x :: rest).getLast hne]) ++ pushedJobs ops) :=
          ((List.perm_append_singleton _ _).symm).append_right _
        have step3 : ((x :: rest).getLast hne ::
              ((x :: rest).dropLast ++ pushedJobs ops)).Perm
            ((x :: rest) ++ pushedJobs ops) := by
          have heq : (x :: rest).dropLast ++ [(x :: rest).getLast hne] ++
              pushedJobs ops = (x :: rest) ++ pushedJobs ops := by rw [hsplit]
          rw [← heq]
          simpa using step2
        exact step1.trans step3
    | steal =>
      cases q with
      | nil =>
        have := ih ([] : List α)
        simp only [absRun, absStep, pushedJobs, List.head?_nil, List.tail_nil,
          List.filterMap_cons_none, List.nil_append] at this ⊢
        exact this
      | cons x rest =>
        have hih := ih rest
        simp only [absRun, absStep, pushedJobs, List.head?_cons, List.tail_cons,
          List.filterMap_cons_some, List.cons_append] at hih ⊢
        exact hih.cons x


/-- C6: sequential conservation and order of the work-stealing deque.  For
every operation sequence applied to a fresh deque (any initial size,
including sequences that trigger grow): the delivered outputs coincide with
the abstract deque model in which Pop removes the most recently pushed
element still present (LIFO) and Steal removes the oldest (FIFO); Size
equals the number of live elements, i.e. pushes minus successful removals;
and the delivered jobs together with the remaining contents are a
permutation of the pushed jobs - so every pushed job is delivered at most
once and nothing never pushed is ever delivered. -/
theorem deque_sequential_refinement (α : Type) [Inhabited α]
    (ops : List (DequeOp α)) (initialSize : Int) :
    (wsRun (NewWorkStealingDeque α initialSize) ops).2 = (absRun [] ops).2 ∧
    wsSize (wsRun (NewWorkStealingDeque α initialSize) ops).1 =
      ((absRun ([] : List α) ops).1).length ∧
    ((((absRun ([] : List α) ops).2).filterMap id) ++
      (absRun ([] : List α) ops).1).Perm (pushedJobs ops) ∧
    (((absRun ([] : List α) ops).2).filterMap id).length +
      ((absRun ([] : List α) ops).1).length = (pushedJobs ops).length := by
  obtain ⟨ho, hr⟩ := wsRun_sim ops (NewWorkStealingDeque α initialSize) []
    (newDeque_rep α initialSize)
  have hcons := absRun_conservation ops ([] : List α)
  simp only [List.nil_append] at hcons
  refine ⟨ho, ?_, hcons, ?_⟩
  · obtain ⟨_, _, h2, _, _, _⟩ := hr
    unfold wsSize
    exact h2
  · have hlen := hcons.length_eq
    simpa using hlen

end Workerpool
